import Mathlib

/-!
Verification of the completion-stream combinator layer of the `completion`
crate (`src/stream/mod.rs`).

A completion stream is embedded as a poll oracle `Nat → PollNext α`: the
value the stream's `poll_next` returns on its `k`-th poll.  Adapters built
by `CompletionStreamExt` are state machines over such oracles, holding the
number of polls already made to each inner stream together with their
adapter-local scalar state (a fuse flag, a remaining count, …).  Terminal
reductions are fuel-driven runners: `none` means the run was not driven to
completion within the fuel, mirroring an executor that keeps polling.

Only the extension-trait surface and `BlockOn` live in `src/stream/mod.rs`;
the adapter bodies live in submodules (`adapters`, `futures`,
`from_completion_stream`) that are not part of the sources given here, so
those state machines are modelled from the specification, as their doc
comments say.
-/

/-- Result of one `poll_next` call on a completion stream:
`Poll::Pending`, `Poll::Ready(Some(x))` or `Poll::Ready(None)`. -/
inductive PollNext (α : Type) : Type
  | notFinished
  | item (x : α)
  | ended
deriving DecidableEq

/-- A completion stream embedded as an oracle: `s k` is what the stream's
`poll_next` returns on its `k`-th poll. -/
abbrev StreamOracle (α : Type) := Nat → PollNext α

variable {α β σ : Type}

/-- Polling a raw oracle stream; the state is the number of polls already
made to it. -/
def rawPoll (s : StreamOracle α) (c : Nat) : PollNext α × Nat := (s c, c + 1)

/-- Starting from poll `c`, the stream first reports `Ended` on poll
`c + m`: no poll between `c` and `c + m - 1` returns `Ended`. -/
def endsFrom (s : StreamOracle α) (c m : Nat) : Prop :=
  s (c + m) = .ended ∧ ∀ i, i < m → s (c + i) ≠ .ended

/-- The items produced by polls `c, c + 1, …, c + m - 1`, in order. -/
def itemsFrom (s : StreamOracle α) : Nat → Nat → List α
  | _, 0 => []
  | c, m + 1 =>
    match s c with
    | .item x => x :: itemsFrom s (c + 1) m
    | _ => itemsFrom s (c + 1) m

/-- Drive a stream state machine with at most `fuel` polls, collecting the
items it yields; `some l` means `Ended` was observed after yielding exactly
the items `l`, `none` means the fuel ran out first. -/
def collectRun (f : σ → PollNext α × σ) : Nat → σ → Option (List α)
  | 0, _ => none
  | fuel + 1, st =>
    match f st with
    | (.ended, _) => some []
    | (.item x, st') => (collectRun f fuel st').map (x :: ·)
    | (.notFinished, st') => collectRun f fuel st'

/-- Modelled from the spec: the `Count` terminal reduction (`Count::poll`
lives in the crate's `futures` submodule, which is not among the sources).
It repeatedly polls the source, increments the accumulator on each item and
finishes with the accumulator once the source ends.  The runner drives the
reduction to completion with at most `fuel` polls. -/
def countRun (f : σ → PollNext α × σ) : Nat → Nat → σ → Option Nat
  | 0, _, _ => none
  | fuel + 1, acc, st =>
    match f st with
    | (.ended, _) => some acc
    | (.item _, st') => countRun f fuel (acc + 1) st'
    | (.notFinished, st') => countRun f fuel acc st'

/-- State of the `Fuse` adapter: how many polls were made to the inner
stream, and the exhaustion flag. -/
structure FuseState : Type where
  cursor : Nat
  done : Bool
deriving DecidableEq

/-- Modelled from the spec: the `Fuse` adapter (its `poll_next` lives in the
crate's `adapters` submodule, which is not among the sources).  A boolean
records whether the inner stream has ever reported `Ended`; once set,
subsequent polls short-circuit to `Ended` without touching the inner stream
(the cursor does not advance). -/
def fusePoll (s : StreamOracle α) (st : FuseState) : PollNext α × FuseState :=
  if st.done then (.ended, st)
  else
    match s st.cursor with
    | .ended => (.ended, ⟨st.cursor + 1, true⟩)
    | .item x => (.item x, ⟨st.cursor + 1, false⟩)
    | .notFinished => (.notFinished, ⟨st.cursor + 1, false⟩)

/-- The result of the `(k+1)`-th poll of the machine `f` after state `st`,
together with the state it leaves behind. -/
def pollIter (f : σ → PollNext α × σ) (st : σ) : Nat → PollNext α × σ
  | 0 => f st
  | k + 1 => f (pollIter f st k).2

/-- State of the `Chain` adapter: poll counts of both inner streams and the
flag saying the first stream is exhausted and the second is active. -/
structure ChainState : Type where
  c1 : Nat
  c2 : Nat
  onSecond : Bool
deriving DecidableEq

/-- Modelled from the spec: the `Chain` adapter (its `poll_next` lives in
the crate's `adapters` submodule, which is not among the sources).  It
forwards the first stream's polls until that stream reports `Ended`, then
switches permanently to the second stream; the switching poll immediately
polls the second stream. -/
def chainPoll (s t : StreamOracle α) (st : ChainState) :
    PollNext α × ChainState :=
  if st.onSecond then (t st.c2, ⟨st.c1, st.c2 + 1, true⟩)
  else
    match s st.c1 with
    | .ended => (t st.c2, ⟨st.c1 + 1, st.c2 + 1, true⟩)
    | .item x => (.item x, ⟨st.c1 + 1, st.c2, false⟩)
    | .notFinished => (.notFinished, ⟨st.c1 + 1, st.c2, false⟩)

/-- Modelled from the spec: `StepBy::new` (the `StepBy` adapter lives in
the crate's `adapters` submodule, which is not among the sources).  A zero
step is a usage error that fails immediately at construction — `mod.rs`
documents `step_by` as panicking when `step` is `0` — modelled as `none`.
The state is the number of items still to skip before the next yield,
paired with the inner poll count; the first item is always yielded. -/
def stepByNew (step : Nat) : Option (Nat × Nat) :=
  if step = 0 then none else some (0, 0)

/-- Modelled from the spec: one `poll_next` of the `StepBy` adapter.  After
yielding an item it skips `step - 1` subsequent items before yielding the
next, consuming the skipped items inside the same poll. -/
def stepByPoll (s : StreamOracle α) (step : Nat) :
    Nat → Nat → PollNext α × (Nat × Nat)
  | skip, c =>
    match s c with
    | .notFinished => (.notFinished, (skip, c + 1))
    | .ended => (.ended, (skip, c + 1))
    | .item x =>
      match skip with
      | 0 => (.item x, (step - 1, c + 1))
      | t + 1 => stepByPoll s step t (c + 1)

/-- `stepByPoll` as a state machine over its pair state. -/
def stepByPollW (s : StreamOracle α) (step : Nat) (st : Nat × Nat) :
    PollNext α × (Nat × Nat) :=
  stepByPoll s step st.1 st.2

/-- Keep the head of a list after first dropping `skip` elements, then
every `step`-th element from there on; `keepEvery step 0` is the list of
elements at positions `0, step, 2 * step, …`. -/
def keepEvery (step : Nat) : Nat → List α → List α
  | _, [] => []
  | 0, x :: l => x :: keepEvery step (step - 1) l
  | skip + 1, _ :: l => keepEvery step skip l

/-- Modelled from the spec: the `Take` adapter (its `poll_next` lives in
the crate's `adapters` submodule, which is not among the sources).  It
holds a remaining count; when it reaches zero the stream ends without the
inner stream being polled. -/
def takePoll (s : StreamOracle α) (st : Nat × Nat) :
    PollNext α × (Nat × Nat) :=
  match st.1 with
  | 0 => (.ended, st)
  | n + 1 =>
    match s st.2 with
    | .ended => (.ended, (n + 1, st.2 + 1))
    | .item x => (.item x, (n, st.2 + 1))
    | .notFinished => (.notFinished, (n + 1, st.2 + 1))

/-- Modelled from the spec: one `poll_next` of the `Skip` adapter (its
body lives in the crate's `adapters` submodule, which is not among the
sources).  It holds a remaining count of items to discard; discarded items
are consumed inside the same poll. -/
def skipPoll (s : StreamOracle α) : Nat → Nat → PollNext α × (Nat × Nat)
  | n, c =>
    match s c with
    | .notFinished => (.notFinished, (n, c + 1))
    | .ended => (.ended, (n, c + 1))
    | .item x =>
      match n with
      | 0 => (.item x, (0, c + 1))
      | k + 1 => skipPoll s k (c + 1)

/-- `skipPoll` as a state machine over its pair state. -/
def skipPollW (s : StreamOracle α) (st : Nat × Nat) :
    PollNext α × (Nat × Nat) :=
  skipPoll s st.1 st.2

/-- Modelled from the spec: the `All` terminal reduction (`All::poll` lives
in the crate's `futures` submodule, which is not among the sources).  It
finishes `false` immediately on the first item for which the predicate is
false, and finishes `true` once the stream ends.  The runner drives the
reduction to completion with at most `fuel` polls and also returns the
number of polls made to the source, so that short-circuiting is visible. -/
def allRun (s : StreamOracle α) (p : α → Bool) :
    Nat → Nat → Option (Bool × Nat)
  | 0, _ => none
  | fuel + 1, c =>
    match s c with
    | .ended => some (true, c + 1)
    | .item x => if p x then allRun s p fuel (c + 1) else some (false, c + 1)
    | .notFinished => allRun s p fuel (c + 1)

/-- Modelled from the spec: the `Any` terminal reduction (`Any::poll` lives
in the crate's `futures` submodule, which is not among the sources).  It
finishes `true` immediately on the first item for which the predicate is
true, and finishes `false` once the stream ends. -/
def anyRun (s : StreamOracle α) (p : α → Bool) :
    Nat → Nat → Option (Bool × Nat)
  | 0, _ => none
  | fuel + 1, c =>
    match s c with
    | .ended => some (false, c + 1)
    | .item x => if p x then some (true, c + 1) else anyRun s p fuel (c + 1)
    | .notFinished => anyRun s p fuel (c + 1)

/-- An event a running `All` passes over without deciding: a pending poll
or an item satisfying the predicate. -/
def allEventOk (p : α → Bool) : PollNext α → Bool
  | .item x => p x
  | .notFinished => true
  | .ended => false

/-- An event that makes `All` finish `false`: an item failing the
predicate. -/
def allEventFail (p : α → Bool) : PollNext α → Bool
  | .item x => !p x
  | .notFinished => false
  | .ended => false

/-- An event a short-circuiting `collect` into `Option` passes over: a
pending poll or a present item. -/
def optEventOk : PollNext (Option α) → Bool
  | .item (some _) => true
  | .item none => false
  | .notFinished => true
  | .ended => false

/-- Modelled from the spec: `collect` into an `Option` container
(`FromCompletionStream` for `Option` lives in the crate's
`from_completion_stream` submodule, which is not among the sources).  The
construction drains the source, appending present items to the container;
it stops and reports `none` as soon as an absent item is seen, and reports
the container once the source ends.  The runner returns the outcome
together with the number of polls made to the source. -/
def collectOptRun (s : StreamOracle (Option α)) :
    Nat → List α → Nat → Option (Option (List α) × Nat)
  | 0, _, _ => none
  | fuel + 1, acc, c =>
    match s c with
    | .ended => some (some acc, c + 1)
    | .item none => some (none, c + 1)
    | .item (some x) => collectOptRun s fuel (acc ++ [x]) (c + 1)
    | .notFinished => collectOptRun s fuel acc (c + 1)

/-- `BlockOn::next` from `src/stream/mod.rs`: `block_on(self.stream.next())`
drives the wrapped stream to its next item on the calling thread.  The
synchronous wait is modelled by a fuel-driven runner: `some (some x)` is an
item, `some none` is end of stream, `none` means the wait did not finish
within the fuel. -/
def nextRun (f : σ → PollNext α × σ) : Nat → σ → Option (Option α) × σ
  | 0, st => (none, st)
  | fuel + 1, st =>
    match f st with
    | (.item x, st') => (some (some x), st')
    | (.ended, st') => (some none, st')
    | (.notFinished, st') => nextRun f fuel st'

/-- A completion stream value as `BlockOn` sees it: its poll oracle and its
`size_hint`. -/
structure MStream (α : Type) : Type where
  resp : StreamOracle α
  sizeHint : Nat × Option Nat

/-- `BlockOn` from `src/stream/mod.rs`: the blocking-iterator wrapper
holding the stream. -/
structure BlockOn (α : Type) : Type where
  stream : MStream α

/-- `block_on` from `src/stream/mod.rs`. -/
def blockOn (s : MStream α) : BlockOn α := ⟨s⟩

/-- `Iterator::size_hint` for `BlockOn` from `src/stream/mod.rs`: it
forwards `self.stream.size_hint()`. -/
def BlockOn.sizeHint (b : BlockOn α) : Nat × Option Nat :=
  b.stream.sizeHint

/-- The methods of the public `CompletionStreamExt` surface in
`src/stream/mod.rs`, in source order. -/
inductive Combinator : Type
  | pollNext
  | next
  | count
  | last
  | nth
  | stepBy
  | chain
  | map
  | then'
  | forEach
  | filter
  | filterMap
  | skipWhile
  | takeWhile
  | skip
  | take
  | fuse
  | collect
  | fold
  | all
  | any
  | copied
  | cloned
  | boxed
  | boxedLocal
deriving DecidableEq

/-- How a method takes its receiver. -/
inductive ReceiverMode : Type
  | byValue
  | byMutRef
deriving DecidableEq

/-- Receiver mode of each `CompletionStreamExt` method, transcribed from
the signatures in `src/stream/mod.rs`: `self` is `byValue`, `&mut self` is
`byMutRef`. -/
def receiverMode : Combinator → ReceiverMode
  | .pollNext => .byMutRef
  | .next => .byMutRef
  | .count => .byValue
  | .last => .byValue
  | .nth => .byMutRef
  | .stepBy => .byValue
  | .chain => .byValue
  | .map => .byValue
  | .then' => .byValue
  | .forEach => .byValue
  | .filter => .byValue
  | .filterMap => .byValue
  | .skipWhile => .byValue
  | .takeWhile => .byValue
  | .skip => .byValue
  | .take => .byValue
  | .fuse => .byValue
  | .collect => .byValue
  | .fold => .byValue
  | .all => .byMutRef
  | .any => .byMutRef
  | .copied => .byValue
  | .cloned => .byValue
  | .boxed => .byValue
  | .boxedLocal => .byValue

theorem collectRun_ended {f : σ → PollNext α × σ} {st st' : σ} {fuel : Nat}
    (h : f st = (.ended, st')) : collectRun f (fuel + 1) st = some [] := by
  simp only [collectRun, h]

theorem collectRun_item {f : σ → PollNext α × σ} {st st' : σ} {x : α}
    {fuel : Nat} (h : f st = (.item x, st')) :
    collectRun f (fuel + 1) st = (collectRun f fuel st').map (x :: ·) := by
  simp only [collectRun, h]

theorem collectRun_nf {f : σ → PollNext α × σ} {st st' : σ} {fuel : Nat}
    (h : f st = (.notFinished, st')) :
    collectRun f (fuel + 1) st = collectRun f fuel st' := by
  simp only [collectRun, h]

theorem collectRun_succ (f : σ → PollNext α × σ) {fuel : Nat} {st : σ}
    {l : List α} (h : collectRun f fuel st = some l) :
    collectRun f (fuel + 1) st = some l := by
  induction fuel generalizing st l with
  | zero => simp [collectRun] at h
  | succ n ih =>
    rcases hf : f st with ⟨r, st'⟩
    cases r with
    | ended => simpa [collectRun, hf] using h
    | notFinished =>
      simp only [collectRun, hf] at h ⊢
      exact ih h
    | item x =>
      simp only [collectRun, hf, Option.map_eq_some'] at h
      rcases h with ⟨l', hl', rfl⟩
      simp only [collectRun, hf, Option.map_eq_some']
      exact ⟨l', ih hl', rfl⟩

theorem collectRun_mono (f : σ → PollNext α × σ) {fuel fuel' : Nat} {st : σ}
    {l : List α} (hle : fuel ≤ fuel') (h : collectRun f fuel st = some l) :
    collectRun f fuel' st = some l := by
  induction fuel' with
  | zero =>
    have : fuel = 0 := Nat.le_zero.mp hle
    subst this; exact h
  | succ n ih =>
    rcases Nat.lt_or_ge fuel (n + 1) with hlt | hge
    · exact collectRun_succ f (ih (Nat.lt_succ_iff.mp hlt))
    · have : fuel = n + 1 := Nat.le_antisymm hle hge
      subst this; exact h

/-- Two states on which the machine's very next poll agrees are
indistinguishable to the runner. -/
theorem collectRun_congr (f : σ → PollNext α × σ) {st st' : σ} (fuel : Nat)
    (h : f st = f st') :
    collectRun f (fuel + 1) st = collectRun f (fuel + 1) st' := by
  simp only [collectRun, h]

/-- `Count` is the length of the collected items, shifted by the initial
accumulator. -/
theorem countRun_eq_collectRun (f : σ → PollNext α × σ) :
    ∀ fuel acc st, countRun f fuel acc st =
      (collectRun f fuel st).map (fun l => acc + l.length) := by
  intro fuel
  induction fuel with
  | zero => intro acc st; simp [countRun, collectRun]
  | succ n ih =>
    intro acc st
    rcases hf : f st with ⟨r, st'⟩
    cases r with
    | ended => simp [countRun, collectRun, hf]
    | notFinished => simp only [countRun, collectRun, hf]; exact ih _ _
    | item x =>
      simp only [countRun, collectRun, hf, ih, Option.map_map]
      rcases collectRun f n st' with _ | l
      · rfl
      · simp [Function.comp]; omega

theorem endsFrom_zero {s : StreamOracle α} {c : Nat} (h : endsFrom s c 0) :
    s c = .ended := by
  simpa using h.1

theorem endsFrom_succ {s : StreamOracle α} {c m : Nat}
    (h : endsFrom s c (m + 1)) : s c ≠ .ended ∧ endsFrom s (c + 1) m := by
  rcases h with ⟨hend, hpre⟩
  refine ⟨by simpa using hpre 0 (Nat.succ_pos m), ?_, ?_⟩
  · have : c + (m + 1) = c + 1 + m := by omega
    rwa [this] at hend
  · intro i hi
    have : c + 1 + i = c + (i + 1) := by omega
    rw [this]
    exact hpre (i + 1) (by omega)

/-- Draining a raw stream collects exactly its items, in order. -/
theorem rawPoll_collect {s : StreamOracle α} :
    ∀ m c, endsFrom s c m →
      collectRun (rawPoll s) (m + 1) c = some (itemsFrom s c m) := by
  intro m
  induction m with
  | zero =>
    intro c h
    simp [collectRun, rawPoll, endsFrom_zero h, itemsFrom]
  | succ n ih =>
    intro c h
    rcases endsFrom_succ h with ⟨hne, hrest⟩
    rcases hsc : s c with _ | x
    · rw [collectRun_nf (show rawPoll s c = (.notFinished, c + 1) by
        simp [rawPoll, hsc])]
      simp only [itemsFrom, hsc]
      exact ih (c + 1) hrest
    · rw [collectRun_item (show rawPoll s c = (.item x, c + 1) by
        simp [rawPoll, hsc])]
      simp only [itemsFrom, hsc]
      rw [ih (c + 1) hrest]
      rfl
    · exact absurd hsc hne

theorem fusePoll_done {s : StreamOracle α} {st : FuseState}
    (h : st.done = true) : fusePoll s st = (.ended, st) := by
  simp [fusePoll, h]

theorem fusePoll_ended_done {s : StreamOracle α} {st st' : FuseState}
    (h : fusePoll s st = (.ended, st')) : st'.done = true := by
  rcases hd : st.done with _ | _
  · rcases hc : s st.cursor with _ | x
    · simp [fusePoll, hd, hc] at h
    · simp [fusePoll, hd, hc] at h
    · simp only [fusePoll, hd, hc, Bool.false_eq_true, if_false,
        Prod.mk.injEq, true_and] at h
      rw [← h]
  · rw [fusePoll_done hd] at h
    rw [← (Prod.mk.injEq _ _ _ _ |>.mp h).2]
    exact hd

/-- Claim C2: once `fuse` has reported `Ended`, every subsequent poll
returns `Ended` again and leaves the fuse state unchanged — in particular
the inner cursor does not advance, so the inner stream is never polled
again — whatever the raw stream would return after its first `Ended`. -/
theorem fuse_ended_idempotent (s : StreamOracle α) (st st' : FuseState)
    (h : fusePoll s st = (.ended, st')) :
    ∀ k, pollIter (fusePoll s) st' k = (.ended, st') := by
  have hdone := fusePoll_ended_done h
  intro k
  induction k with
  | zero => simpa [pollIter] using fusePoll_done hdone
  | succ n ih =>
    simp only [pollIter, ih]
    exact fusePoll_done hdone

theorem fuse_ended_idempotent_w :
    pollIter (fusePoll ((fun _ => .ended) : StreamOracle Nat)) ⟨1, true⟩ 3 =
      ((.ended, ⟨1, true⟩) : PollNext Nat × FuseState) :=
  fuse_ended_idempotent (fun _ => .ended) ⟨0, false⟩ ⟨1, true⟩
    (by decide) 3

theorem nextRun_none_done {s : StreamOracle α} {st st' : FuseState}
    {fuel : Nat} (h : nextRun (fusePoll s) fuel st = (some none, st')) :
    st'.done = true := by
  induction fuel generalizing st with
  | zero => simp [nextRun] at h
  | succ n ih =>
    rcases hf : fusePoll s st with ⟨r, st''⟩
    cases r with
    | item x => simp [nextRun, hf] at h
    | ended =>
      simp only [nextRun, hf, Prod.mk.injEq, true_and] at h
      rw [← h]
      exact fusePoll_ended_done hf
    | notFinished =>
      simp only [nextRun, hf] at h
      exact ih h

/-- Claim C10: `block_on(S.fuse())` is a fused iterator: once a `next()`
call has returned `None` (the blocking wait on the fused stream finished
with end of stream), every later `next()` call returns `None` again, with
the fuse state unchanged. -/
theorem blockOn_fuse_fused (s : StreamOracle α) (st st' : FuseState)
    (fuel : Nat) (h : nextRun (fusePoll s) fuel st = (some none, st')) :
    ∀ fuel', 1 ≤ fuel' →
      nextRun (fusePoll s) fuel' st' = (some none, st') := by
  have hdone := nextRun_none_done h
  intro fuel' hf'
  obtain ⟨k, rfl⟩ : ∃ k, fuel' = k + 1 := ⟨fuel' - 1, by omega⟩
  simp only [nextRun, fusePoll_done hdone]

theorem blockOn_fuse_fused_w :
    nextRun (fusePoll ((fun _ => .ended) : StreamOracle Nat)) 1 ⟨1, true⟩ =
      ((some none, ⟨1, true⟩) : Option (Option Nat) × FuseState) :=
  blockOn_fuse_fused (fun _ => .ended) ⟨0, false⟩ ⟨1, true⟩ 1
    (by decide) 1 (by decide)

/-- Claim C9: `BlockOn` reports exactly the wrapped stream's size estimate:
its `size_hint` equals the stream's `size_hint`, unmodified. -/
theorem blockOn_sizeHint (s : MStream α) :
    (blockOn s).sizeHint = s.sizeHint := rfl

/-- Claim C1 counterexample: the claim says that in particular `next`,
`nth`, `all` and `any` take the receiver by value; in `src/stream/mod.rs`
each of them takes `&mut self`. -/
theorem combinator_by_value_cex :
    receiverMode Combinator.next ≠ ReceiverMode.byValue ∧
    receiverMode Combinator.nth ≠ ReceiverMode.byValue ∧
    receiverMode Combinator.all ≠ ReceiverMode.byValue ∧
    receiverMode Combinator.any ≠ ReceiverMode.byValue := by
  decide

/-- Claim C1 (amended): every method of the public `CompletionStreamExt`
surface consumes its receiver by value, except the borrowing operations
`poll_next`, `next`, `nth`, `all` and `any`, which take the receiver by
mutable reference. -/
theorem combinator_receiver_modes :
    ∀ c : Combinator, receiverMode c = ReceiverMode.byValue ↔
      c ∉ ([.pollNext, .next, .nth, .all, .any] : List Combinator) := by
  intro c
  cases c <;> decide

theorem chainPoll_onSecond (s t : StreamOracle α) :
    ∀ fuel c1 c2, collectRun (chainPoll s t) fuel ⟨c1, c2, true⟩ =
      collectRun (rawPoll t) fuel c2 := by
  intro fuel
  induction fuel with
  | zero => intro c1 c2; rfl
  | succ n ih =>
    intro c1 c2
    rcases hc : t c2 with _ | x
    · rw [collectRun_nf (show chainPoll s t ⟨c1, c2, true⟩ =
          (.notFinished, ⟨c1, c2 + 1, true⟩) by simp [chainPoll, hc]),
        collectRun_nf (show rawPoll t c2 = (.notFinished, c2 + 1) by
          simp [rawPoll, hc])]
      exact ih c1 (c2 + 1)
    · rw [collectRun_item (show chainPoll s t ⟨c1, c2, true⟩ =
          (.item x, ⟨c1, c2 + 1, true⟩) by simp [chainPoll, hc]),
        collectRun_item (show rawPoll t c2 = (.item x, c2 + 1) by
          simp [rawPoll, hc])]
      rw [ih c1 (c2 + 1)]
    · rw [collectRun_ended (show chainPoll s t ⟨c1, c2, true⟩ =
          (.ended, ⟨c1, c2 + 1, true⟩) by simp [chainPoll, hc]),
        collectRun_ended (show rawPoll t c2 = (.ended, c2 + 1) by
          simp [rawPoll, hc])]

theorem chainPoll_switch (s t : StreamOracle α) {c1 : Nat}
    (h : s c1 = .ended) :
    ∀ fuel c2, collectRun (chainPoll s t) (fuel + 1) ⟨c1, c2, false⟩ =
      collectRun (rawPoll t) (fuel + 1) c2 := by
  intro fuel c2
  rcases hc : t c2 with _ | x
  · rw [collectRun_nf (show chainPoll s t ⟨c1, c2, false⟩ =
        (.notFinished, ⟨c1 + 1, c2 + 1, true⟩) by simp [chainPoll, h, hc]),
      collectRun_nf (show rawPoll t c2 = (.notFinished, c2 + 1) by
        simp [rawPoll, hc])]
    exact chainPoll_onSecond s t fuel (c1 + 1) (c2 + 1)
  · rw [collectRun_item (show chainPoll s t ⟨c1, c2, false⟩ =
        (.item x, ⟨c1 + 1, c2 + 1, true⟩) by simp [chainPoll, h, hc]),
      collectRun_item (show rawPoll t c2 = (.item x, c2 + 1) by
        simp [rawPoll, hc])]
    rw [chainPoll_onSecond s t fuel (c1 + 1) (c2 + 1)]
  · rw [collectRun_ended (show chainPoll s t ⟨c1, c2, false⟩ =
        (.ended, ⟨c1 + 1, c2 + 1, true⟩) by simp [chainPoll, h, hc]),
      collectRun_ended (show rawPoll t c2 = (.ended, c2 + 1) by
        simp [rawPoll, hc])]

theorem chainPoll_first (s t : StreamOracle α) :
    ∀ m c1 c2 K, (∀ i, i < m → s (c1 + i) ≠ .ended) →
      collectRun (chainPoll s t) (m + K) ⟨c1, c2, false⟩ =
        (collectRun (chainPoll s t) K ⟨c1 + m, c2, false⟩).map
          (itemsFrom s c1 m ++ ·) := by
  intro m
  induction m with
  | zero =>
    intro c1 c2 K _
    simp [itemsFrom]
  | succ n ih =>
    intro c1 c2 K hne
    have h0 : s c1 ≠ .ended := by simpa using hne 0 (Nat.succ_pos n)
    have hshift : ∀ i, i < n → s (c1 + 1 + i) ≠ .ended := by
      intro i hi
      have : c1 + 1 + i = c1 + (i + 1) := by omega
      rw [this]
      exact hne (i + 1) (by omega)
    have hfuel : n + 1 + K = (n + K) + 1 := by omega
    have hc1 : c1 + 1 + n = c1 + (n + 1) := by omega
    rcases hc : s c1 with _ | x
    · rw [hfuel, collectRun_nf (show chainPoll s t ⟨c1, c2, false⟩ =
          (.notFinished, ⟨c1 + 1, c2, false⟩) by simp [chainPoll, hc])]
      rw [ih (c1 + 1) c2 K hshift, hc1]
      simp only [itemsFrom, hc]
    · rw [hfuel, collectRun_item (show chainPoll s t ⟨c1, c2, false⟩ =
          (.item x, ⟨c1 + 1, c2, false⟩) by simp [chainPoll, hc])]
      rw [ih (c1 + 1) c2 K hshift, hc1]
      rcases hK : collectRun (chainPoll s t) K ⟨c1 + (n + 1), c2, false⟩ with
        _ | l
      · rfl
      · simp [itemsFrom, hc]
    · exact absurd hc h0

/-- Claim C3: `S.chain(T)` yields exactly the items of `S`, in `S`'s order,
followed by exactly the items of `T`, in `T`'s order, with no interleaving,
across however many poll cycles the two streams take to be consumed. -/
theorem chain_items (s t : StreamOracle α) (m n : Nat)
    (hs : endsFrom s 0 m) (ht : endsFrom t 0 n) :
    collectRun (chainPoll s t) (m + n + 1) ⟨0, 0, false⟩ =
      some (itemsFrom s 0 m ++ itemsFrom t 0 n) := by
  have h1 := chainPoll_first s t m 0 0 (n + 1) hs.2
  rw [show m + n + 1 = m + (n + 1) by omega, h1]
  rw [chainPoll_switch s t hs.1 n 0]
  rw [rawPoll_collect n 0 ht]
  rfl

theorem chain_items_w :
    collectRun
      (chainPoll ((fun i => if i < 2 then .item i else .ended) : StreamOracle Nat)
        (fun i => if i < 3 then .item (10 + i) else .ended))
      6 ⟨0, 0, false⟩ = some [0, 1, 10, 11, 12] :=
  chain_items (fun i => if i < 2 then .item i else .ended)
    (fun i => if i < 3 then .item (10 + i) else .ended) 2 3
    (by constructor
        · decide
        · decide)
    (by constructor
        · decide
        · decide)

theorem stepBy_run (s : StreamOracle α) (k : Nat) :
    ∀ m c skip, endsFrom s c m →
      collectRun (stepByPollW s k) (m + 1) (skip, c) =
        some (keepEvery k skip (itemsFrom s c m)) := by
  intro m
  induction m with
  | zero =>
    intro c skip h
    rw [collectRun_ended (show stepByPollW s k (skip, c) =
        (.ended, (skip, c + 1)) by
      simp [stepByPollW, stepByPoll, endsFrom_zero h])]
    simp [itemsFrom, keepEvery]
  | succ n ih =>
    intro c skip h
    obtain ⟨hne, hrest⟩ := endsFrom_succ h
    rcases hc : s c with _ | x
    · rw [collectRun_nf (show stepByPollW s k (skip, c) =
          (.notFinished, (skip, c + 1)) by simp [stepByPollW, stepByPoll, hc])]
      rw [ih (c + 1) skip hrest]
      simp only [itemsFrom, hc]
    · cases skip with
      | zero =>
        rw [collectRun_item (show stepByPollW s k (0, c) =
            (.item x, (k - 1, c + 1)) by simp [stepByPollW, stepByPoll, hc])]
        rw [ih (c + 1) (k - 1) hrest]
        simp only [itemsFrom, hc, keepEvery, Option.map_some']
      | succ tl =>
        have hstep : stepByPollW s k (tl + 1, c) = stepByPollW s k (tl, c + 1) := by
          show stepByPoll s k (tl + 1) c = stepByPoll s k tl (c + 1)
          conv_lhs => rw [stepByPoll.eq_def]
          simp only [hc]
        rw [collectRun_congr _ (n + 1) hstep]
        rw [collectRun_succ _ (ih (c + 1) tl hrest)]
        simp only [itemsFrom, hc, keepEvery]
    · exact absurd hc hne

theorem keepEvery_get (k : Nat) (hk : k ≠ 0) :
    ∀ (l : List α) (t j : Nat),
      (keepEvery k t l).get? j = l.get? (t + j * k) := by
  intro l
  induction l with
  | nil => intro t j; simp [keepEvery]
  | cons y ys ih =>
    intro t j
    cases t with
    | zero =>
      cases j with
      | zero => simp [keepEvery]
      | succ j' =>
        simp only [keepEvery, List.get?_cons_succ]
        rw [ih (k - 1) j']
        have h1 : (j' + 1) * k = j' * k + k := by ring
        have h2 : 0 + (j' + 1) * k = (k - 1 + j' * k) + 1 := by omega
        rw [h2, List.get?_cons_succ]
    | succ t' =>
      simp only [keepEvery]
      rw [ih t' j]
      have h2 : t' + 1 + j * k = (t' + j * k) + 1 := by omega
      rw [h2, List.get?_cons_succ]

/-- Claim C4: for step `k > 0`, `S.step_by(k)` yields exactly the items of
`S` at positions `0, k, 2k, …`, in `S`'s original relative order — the
`j`-th yielded item is `S`'s item at position `j * k` — while `step_by(0)`
is a usage error that fails immediately and deterministically at
construction instead of looping forever. -/
theorem step_by_items (s : StreamOracle α) (k m : Nat) (hk : k ≠ 0)
    (hend : endsFrom s 0 m) :
    stepByNew 0 = none ∧
    stepByNew k = some (0, 0) ∧
    ∃ l, collectRun (stepByPollW s k) (m + 1) (0, 0) = some l ∧
      ∀ j, l.get? j = (itemsFrom s 0 m).get? (j * k) := by
  refine ⟨by simp [stepByNew], by simp [stepByNew, hk], ?_⟩
  refine ⟨keepEvery k 0 (itemsFrom s 0 m), stepBy_run s k m 0 0 hend, ?_⟩
  intro j
  simpa using keepEvery_get k hk (itemsFrom s 0 m) 0 j

theorem step_by_items_w :
    stepByNew 0 = none ∧
    stepByNew 2 = some (0, 0) ∧
    ∃ l, collectRun
        (stepByPollW ((fun i => if i < 5 then .item i else .ended) :
          StreamOracle Nat) 2) 6 (0, 0) = some l ∧
      ∀ j, l.get? j =
        (itemsFrom ((fun i => if i < 5 then .item i else .ended) :
          StreamOracle Nat) 0 5).get? (j * 2) :=
  step_by_items (fun i => if i < 5 then .item i else .ended) 2 5
    (by decide)
    (by constructor
        · decide
        · decide)

theorem take_run (s : StreamOracle α) :
    ∀ m c n, endsFrom s c m →
      collectRun (takePoll s) (m + 2) (n, c) =
        some ((itemsFrom s c m).take n) := by
  intro m
  induction m with
  | zero =>
    intro c n h
    cases n with
    | zero =>
      rw [collectRun_ended (show takePoll s (0, c) = (.ended, (0, c)) by
        simp [takePoll])]
      simp [itemsFrom]
    | succ n' =>
      rw [collectRun_ended (show takePoll s (n' + 1, c) =
          (.ended, (n' + 1, c + 1)) by simp [takePoll, endsFrom_zero h])]
      simp [itemsFrom]
  | succ m' ih =>
    intro c n h
    obtain ⟨hne, hrest⟩ := endsFrom_succ h
    cases n with
    | zero =>
      rw [collectRun_ended (show takePoll s (0, c) = (.ended, (0, c)) by
        simp [takePoll])]
      simp
    | succ n' =>
      rcases hc : s c with _ | x
      · rw [collectRun_nf (show takePoll s (n' + 1, c) =
            (.notFinished, (n' + 1, c + 1)) by simp [takePoll, hc])]
        rw [ih (c + 1) (n' + 1) hrest]
        simp only [itemsFrom, hc]
      · rw [collectRun_item (show takePoll s (n' + 1, c) =
            (.item x, (n', c + 1)) by simp [takePoll, hc])]
        rw [ih (c + 1) n' hrest]
        simp [itemsFrom, hc]
      · exact absurd hc hne

theorem skip_run (s : StreamOracle α) :
    ∀ m c n, endsFrom s c m →
      collectRun (skipPollW s) (m + 1) (n, c) =
        some ((itemsFrom s c m).drop n) := by
  intro m
  induction m with
  | zero =>
    intro c n h
    rw [collectRun_ended (show skipPollW s (n, c) = (.ended, (n, c + 1)) by
      simp [skipPollW, skipPoll, endsFrom_zero h])]
    simp [itemsFrom]
  | succ m' ih =>
    intro c n h
    obtain ⟨hne, hrest⟩ := endsFrom_succ h
    rcases hc : s c with _ | x
    · rw [collectRun_nf (show skipPollW s (n, c) =
          (.notFinished, (n, c + 1)) by simp [skipPollW, skipPoll, hc])]
      rw [ih (c + 1) n hrest]
      simp only [itemsFrom, hc]
    · cases n with
      | zero =>
        rw [collectRun_item (show skipPollW s (0, c) =
            (.item x, (0, c + 1)) by simp [skipPollW, skipPoll, hc])]
        rw [ih (c + 1) 0 hrest]
        simp [itemsFrom, hc]
      | succ n' =>
        have hstep : skipPollW s (n' + 1, c) = skipPollW s (n', c + 1) := by
          show skipPoll s (n' + 1) c = skipPoll s n' (c + 1)
          conv_lhs => rw [skipPoll.eq_def]
          simp only [hc]
        rw [collectRun_congr _ (m' + 1) hstep]
        rw [collectRun_succ _ (ih (c + 1) n' hrest)]
        simp only [itemsFrom, hc, List.drop_succ_cons]
    · exact absurd hc hne

/-- Claim C5: the count of `S.take(n)` is `min n (count of S)`, and the
count of `S.skip(n)` is `count of S - min n (count of S)`. -/
theorem take_skip_count (s : StreamOracle α) (m n N : Nat)
    (hend : endsFrom s 0 m)
    (hN : countRun (rawPoll s) (m + 1) 0 0 = some N) :
    countRun (takePoll s) (m + 2) 0 (n, 0) = some (min n N) ∧
    countRun (skipPollW s) (m + 2) 0 (n, 0) = some (N - min n N) := by
  rw [countRun_eq_collectRun, rawPoll_collect m 0 hend] at hN
  simp only [Option.map_some', Nat.zero_add, Option.some.injEq] at hN
  constructor
  · rw [countRun_eq_collectRun, take_run s m 0 n hend]
    simp [List.length_take, hN]
  · rw [countRun_eq_collectRun, collectRun_succ _ (skip_run s m 0 n hend)]
    simp only [Option.map_some', Nat.zero_add, Option.some.injEq,
      List.length_drop]
    omega

theorem take_skip_count_w :
    countRun (takePoll ((fun i => if i < 3 then .item i else .ended) :
        StreamOracle Nat)) 5 0 (5, 0) = some (min 5 3) ∧
    countRun (skipPollW ((fun i => if i < 3 then .item i else .ended) :
        StreamOracle Nat)) 5 0 (5, 0) = some (3 - min 5 3) :=
  take_skip_count (fun i => if i < 3 then .item i else .ended) 3 5 3
    (by constructor
        · decide
        · decide)
    (by decide)

theorem allRun_nf {s : StreamOracle α} {p : α → Bool} {c fuel : Nat}
    (h : s c = .notFinished) :
    allRun s p (fuel + 1) c = allRun s p fuel (c + 1) := by
  simp only [allRun, h]

theorem allRun_item_true {s : StreamOracle α} {p : α → Bool} {c fuel : Nat}
    {x : α} (h : s c = .item x) (hp : p x = true) :
    allRun s p (fuel + 1) c = allRun s p fuel (c + 1) := by
  simp only [allRun, h, hp, if_true]

theorem collectOptRun_nf {s : StreamOracle (Option α)} {c fuel : Nat}
    {acc : List α} (h : s c = .notFinished) :
    collectOptRun s (fuel + 1) acc c = collectOptRun s fuel acc (c + 1) := by
  simp only [collectOptRun, h]

theorem collectOptRun_some {s : StreamOracle (Option α)} {c fuel : Nat}
    {acc : List α} {v : α} (h : s c = .item (some v)) :
    collectOptRun s (fuel + 1) acc c =
      collectOptRun s fuel (acc ++ [v]) (c + 1) := by
  simp only [collectOptRun, h]

theorem allRun_fail (s : StreamOracle α) (p : α → Bool) :
    ∀ j c, (∀ i, i < j → allEventOk p (s (c + i)) = true) →
      allEventFail p (s (c + j)) = true →
      allRun s p (j + 1) c = some (false, c + j + 1) := by
  intro j
  induction j with
  | zero =>
    intro c _ hj
    rw [Nat.add_zero] at hj
    rcases hc : s c with _ | x
    · rw [hc] at hj; simp [allEventFail] at hj
    · rw [hc] at hj
      simp only [allEventFail, Bool.not_eq_true'] at hj
      simp [allRun, hc, hj]
    · rw [hc] at hj; simp [allEventFail] at hj
  | succ j' ih =>
    intro c h0 hj
    have hc0 := h0 0 (Nat.succ_pos j')
    rw [Nat.add_zero] at hc0
    have hshift : ∀ i, i < j' → allEventOk p (s (c + 1 + i)) = true := by
      intro i hi
      have : c + 1 + i = c + (i + 1) := by omega
      rw [this]
      exact h0 (i + 1) (by omega)
    have hjs : allEventFail p (s (c + 1 + j')) = true := by
      have : c + 1 + j' = c + (j' + 1) := by omega
      rw [this]
      exact hj
    rcases hc : s c with _ | x
    · rw [allRun_nf hc, ih (c + 1) hshift hjs]
      simp only [Option.some.injEq, Prod.mk.injEq]
      exact ⟨trivial, by omega⟩
    · rw [hc] at hc0
      have hpx : p x = true := by simpa [allEventOk] using hc0
      rw [allRun_item_true hc hpx, ih (c + 1) hshift hjs]
      simp only [Option.some.injEq, Prod.mk.injEq]
      exact ⟨trivial, by omega⟩
    · rw [hc] at hc0; simp [allEventOk] at hc0

theorem allRun_all_true (s : StreamOracle α) (p : α → Bool) :
    ∀ m c, endsFrom s c m → (itemsFrom s c m).all p = true →
      allRun s p (m + 1) c = some (true, c + m + 1) := by
  intro m
  induction m with
  | zero =>
    intro c h _
    simp [allRun, endsFrom_zero h]
  | succ n ih =>
    intro c h hall
    obtain ⟨hne, hrest⟩ := endsFrom_succ h
    rcases hc : s c with _ | x
    · rw [allRun_nf hc,
        ih (c + 1) hrest (by simpa [itemsFrom, hc] using hall)]
      simp only [Option.some.injEq, Prod.mk.injEq]
      exact ⟨trivial, by omega⟩
    · simp only [itemsFrom, hc, List.all_cons, Bool.and_eq_true] at hall
      rw [allRun_item_true hc hall.1, ih (c + 1) hrest hall.2]
      simp only [Option.some.injEq, Prod.mk.injEq]
      exact ⟨trivial, by omega⟩
    · exact absurd hc hne

/-- Claim C6: `S.all(p)` finishes `false` immediately on the first item
failing the predicate, without consuming further items (the source cursor
stops at `j + 1` when the failing item is event `j`); it finishes `true`
once the stream ends when every item passed; and it finishes `true` on an
empty stream. -/
theorem all_spec (s : StreamOracle α) (p : α → Bool) :
    (∀ j, (∀ i, i < j → allEventOk p (s i) = true) →
      allEventFail p (s j) = true →
      allRun s p (j + 1) 0 = some (false, j + 1)) ∧
    (∀ m, endsFrom s 0 m → (itemsFrom s 0 m).all p = true →
      allRun s p (m + 1) 0 = some (true, m + 1)) ∧
    (∀ m, endsFrom s 0 m → itemsFrom s 0 m = [] →
      allRun s p (m + 1) 0 = some (true, m + 1)) := by
  refine ⟨?_, ?_, ?_⟩
  · intro j hpre hj
    simpa using allRun_fail s p j 0 (by simpa using hpre) (by simpa using hj)
  · intro m hend hall
    simpa using allRun_all_true s p m 0 hend hall
  · intro m hend hnil
    simpa using allRun_all_true s p m 0 hend (by rw [hnil]; rfl)

theorem all_spec_w :
    allRun ((fun i => if i < 4 then .item i else .ended) : StreamOracle Nat)
      (fun x => x < 2) 3 0 = some (false, 3) ∧
    allRun ((fun i => if i < 4 then .item i else .ended) : StreamOracle Nat)
      (fun x => x < 9) 5 0 = some (true, 5) :=
  ⟨(all_spec (fun i => if i < 4 then .item i else .ended) (fun x => x < 2)).1
      2 (by decide) (by decide),
   (all_spec (fun i => if i < 4 then .item i else .ended) (fun x => x < 9)).2.1
      4 (by constructor
            · decide
            · decide)
      (by decide)⟩

/-- Claim C7: `all` and `any` short-circuit even on a stream that produces
items forever: when the first item is `0`, `S.any(x == 0)` finishes `true`
within a single poll, having consumed exactly one item (the source cursor
ends at `1`), and `S.all(false)` finishes `false` likewise. -/
theorem any_all_short_circuit (s : StreamOracle Nat)
    (hinf : ∀ i, ∃ x, s i = PollNext.item x) (h0 : s 0 = .item 0) :
    anyRun s (fun x => x == 0) 1 0 = some (true, 1) ∧
    allRun s (fun _ => false) 1 0 = some (false, 1) := by
  constructor
  · simp [anyRun, h0]
  · simp [allRun, h0]

theorem any_all_short_circuit_w :
    anyRun ((fun _ => .item 0) : StreamOracle Nat) (fun x => x == 0) 1 0 =
      some (true, 1) ∧
    allRun ((fun _ => .item 0) : StreamOracle Nat) (fun _ => false) 1 0 =
      some (false, 1) :=
  any_all_short_circuit (fun _ => .item 0) (fun _ => ⟨0, rfl⟩) rfl

theorem collectOpt_fail (s : StreamOracle (Option α)) :
    ∀ j c acc, (∀ i, i < j → optEventOk (s (c + i)) = true) →
      s (c + j) = .item none →
      collectOptRun s (j + 1) acc c = some (none, c + j + 1) := by
  intro j
  induction j with
  | zero =>
    intro c acc _ hj
    rw [Nat.add_zero] at hj
    simp [collectOptRun, hj]
  | succ j' ih =>
    intro c acc h0 hj
    have hc0 := h0 0 (Nat.succ_pos j')
    rw [Nat.add_zero] at hc0
    have hshift : ∀ i, i < j' → optEventOk (s (c + 1 + i)) = true := by
      intro i hi
      have : c + 1 + i = c + (i + 1) := by omega
      rw [this]
      exact h0 (i + 1) (by omega)
    have hjs : s (c + 1 + j') = .item none := by
      have : c + 1 + j' = c + (j' + 1) := by omega
      rw [this]
      exact hj
    rcases hc : s c with _ | x
    · rw [collectOptRun_nf hc, ih (c + 1) acc hshift hjs]
      simp only [Option.some.injEq, Prod.mk.injEq]
      exact ⟨trivial, by omega⟩
    · cases x with
      | none => rw [hc] at hc0; simp [optEventOk] at hc0
      | some v =>
        rw [collectOptRun_some hc, ih (c + 1) (acc ++ [v]) hshift hjs]
        simp only [Option.some.injEq, Prod.mk.injEq]
        exact ⟨trivial, by omega⟩
    · rw [hc] at hc0; simp [optEventOk] at hc0

/-- Claim C8: short-circuiting collection into an `Option` container stops
draining the source and finishes with `none` as soon as an absent item is
seen: if event `j` is the first absent item (every earlier event is a
pending poll or a present item), the run finishes `none` with the source
cursor at `j + 1`, so nothing past the terminating item is consumed. -/
theorem collect_option_short_circuit (s : StreamOracle (Option α)) (j : Nat)
    (hpre : ∀ i, i < j → optEventOk (s i) = true)
    (hj : s j = .item none) :
    collectOptRun s (j + 1) [] 0 = some (none, j + 1) := by
  simpa using collectOpt_fail s j 0 [] (by simpa using hpre) (by simpa using hj)

theorem collect_option_short_circuit_w :
    collectOptRun
      ((fun i => if i = 0 then .item (some 1) else if i = 1 then .item (some 2)
        else if i = 2 then .item none else if i = 3 then .item (some 3)
        else .ended) : StreamOracle (Option Nat))
      3 [] 0 = some (none, 3) :=
  collect_option_short_circuit
    (fun i => if i = 0 then .item (some 1) else if i = 1 then .item (some 2)
      else if i = 2 then .item none else if i = 3 then .item (some 3)
      else .ended)
    2 (by decide) (by decide)
